/-
Verification of the oxn observability-experiments engine.

Shallow Lean embedding of the components of the oxn controller that the
specification describes: the duration-string utilities (src/oxn/utils.py),
the Docker-compose orchestrator (src/oxn/orchestration.py), the load
generator shape (src/oxn/loadgen.py), the report analyzer
(src/oxn/report.py), response-variable labeling (src/oxn/responses.py and
src/oxn/runner.py), the engine run lifecycle (src/oxn/engine.py), and the
prefix-indexed trie store (src/oxn/store.py).

Python floats are modelled as rationals (ℚ); Python dicts holding trie
children are modelled as insertion-ordered association lists, matching
dict iteration order; DataFrames are modelled as lists of rows.
-/
import Mathlib

namespace Oxn

/-! ### Duration utilities — src/oxn/utils.py

`SECONDS_MAP`, `time_string_format_regex = r"(\d+)(us|ms|s|m|h|d)"`,
`validate_time_string` (re.match, i.e. a match anchored at the start) and
`time_string_to_seconds` (re.findall over the string, summing
value × unit factor).  The regex engine is modelled for this fixed
pattern: `\d+` takes a maximal digit run (backtracking can never help
because no unit starts with a digit) and the alternation tries the unit
tokens in written order, exactly as Python's `re` does. -/

/-- The six time units of `time_string_format_regex`. -/
inductive TimeUnit where
  | us | ms | s | m | h | d
deriving DecidableEq, Repr

/-- The characters of each unit token. -/
def TimeUnit.chars : TimeUnit → List Char
  | .us => ['u', 's']
  | .ms => ['m', 's']
  | .s => ['s']
  | .m => ['m']
  | .h => ['h']
  | .d => ['d']

/-- `SECONDS_MAP` from src/oxn/utils.py. -/
def secondsMap : TimeUnit → ℚ
  | .us => 1 / 10 ^ 6
  | .ms => 1 / 10 ^ 3
  | .s => 1
  | .m => 60
  | .h => 3600
  | .d => 86400

/-- Numeric value of a digit run, as `float(value_part)` reads it. -/
def digitsVal (ds : List Char) : ℕ :=
  ds.foldl (fun acc c => 10 * acc + (c.toNat - '0'.toNat)) 0

/-- Match the unit alternation `(us|ms|s|m|h|d)` at the head of the
input, trying the alternatives in the order they are written in the
pattern (so `ms` is preferred over `m` exactly when the next character
is `s`), and return the matched unit with the rest of the input. -/
def matchUnit : List Char → Option (TimeUnit × List Char)
  | [] => none
  | c :: rest =>
    if c = 'u' then
      match rest with
      | r2 :: rest2 => if r2 = 's' then some (.us, rest2) else none
      | [] => none
    else if c = 'm' then
      match rest with
      | r2 :: rest2 => if r2 = 's' then some (.ms, rest2) else some (.m, rest)
      | [] => some (.m, rest)
    else if c = 's' then some (.s, rest)
    else if c = 'h' then some (.h, rest)
    else if c = 'd' then some (.d, rest)
    else none

/-- Match `(\d+)(us|ms|s|m|h|d)` at the head of the input: a nonempty
maximal digit run followed by a unit token. -/
def tryMatch (cs : List Char) : Option ((ℕ × TimeUnit) × List Char) :=
  if cs.takeWhile Char.isDigit = [] then none
  else
    match matchUnit (cs.dropWhile Char.isDigit) with
    | some (u, rest2) => some ((digitsVal (cs.takeWhile Char.isDigit), u), rest2)
    | none => none

/-- `re.findall(time_string_format_regex, s)`: scan for successive
non-overlapping leftmost matches, collecting the two capture groups of
each match. -/
def findAll (cs : List Char) : List (ℕ × TimeUnit) :=
  match cs with
  | [] => []
  | c :: rest =>
    match h : tryMatch (c :: rest) with
    | some (g, rest2) => g :: findAll rest2
    | none => findAll rest
termination_by cs.length
decreasing_by
  · unfold tryMatch at h
    by_cases hds : (c :: rest).takeWhile Char.isDigit = []
    · simp [hds] at h
    · rw [if_neg hds] at h
      split at h
      · rename_i u r2 hm
        simp only [Option.some.injEq, Prod.mk.injEq] at h
        obtain ⟨-, h2⟩ := h
        subst h2
        have h3 : ∀ (dw : List Char) (ur : TimeUnit × List Char),
            matchUnit dw = some ur → ur.2.length < dw.length := by
          intro dw ur hm2
          cases dw with
          | nil => simp [matchUnit] at hm2
          | cons c1 rest1 =>
            simp only [matchUnit] at hm2
            split_ifs at hm2
            · split at hm2
              · split_ifs at hm2
                cases hm2; simp only [List.length_cons]; omega
              · cases hm2
            · split at hm2
              · split_ifs at hm2
                · cases hm2; simp only [List.length_cons]; omega
                · cases hm2; simp only [List.length_cons]; omega
              · cases hm2; simp only [List.length_cons]; omega
            · cases hm2; simp only [List.length_cons]; omega
            · cases hm2; simp only [List.length_cons]; omega
            · cases hm2; simp only [List.length_cons]; omega
        have h4 : ((c :: rest).takeWhile Char.isDigit).length +
            ((c :: rest).dropWhile Char.isDigit).length = (c :: rest).length := by
          rw [← List.length_append, List.takeWhile_append_dropWhile]
        have h5 : 0 < ((c :: rest).takeWhile Char.isDigit).length :=
          List.length_pos.mpr hds
        have h6 := h3 _ _ hm
        simp at h6
        omega
      · simp at h
  · simp

/-- `time_string_to_seconds` from src/oxn/utils.py: sum
`float(value) * SECONDS_MAP[unit]` over all regex matches. -/
def time_string_to_seconds (cs : List Char) : ℚ :=
  (findAll cs).foldl (fun seconds g => seconds + (g.1 : ℚ) * secondsMap g.2) 0

/-- `validate_time_string` from src/oxn/utils.py:
`bool(re.match(time_string_format_regex, time_string))` — the pattern
must match at the start of the string (the rest is unconstrained). -/
def validate_time_string (cs : List Char) : Bool :=
  (tryMatch cs).isSome

/-- Spec-side notion for C7: a well-formed (value, unit) group — a
nonempty digit run paired with a unit. -/
abbrev GoodGroup (g : List Char × TimeUnit) : Prop :=
  g.1 ≠ [] ∧ ∀ c ∈ g.1, c.isDigit = true

/-- Spec-side notion for C7: the string denoted by a sequence of
(value, unit) groups, i.e. a string matching the duration format. -/
def renderGroups (gs : List (List Char × TimeUnit)) : List Char :=
  (gs.map (fun g => g.1 ++ g.2.chars)).flatten

/-! ### Orchestrator — src/oxn/orchestration.py -/

/-- `DockerComposeOrchestrator._build_sue_service_names`.  `include` and
`exclude` are the (possibly empty) lists read from the sue section;
Python truthiness of a list is nonemptiness.  The Python sets are
modelled as finsets. -/
def build_sue_service_names (dockerServiceNames : Finset String)
    (includeServices excludeServices : List String) : Finset String :=
  if includeServices ≠ [] ∧ excludeServices ≠ [] then
    (dockerServiceNames ∩ includeServices.toFinset) \ excludeServices.toFinset
  else if excludeServices ≠ [] then
    dockerServiceNames \ excludeServices.toFinset
  else if includeServices ≠ [] then
    dockerServiceNames ∩ includeServices.toFinset
  else
    dockerServiceNames

/-- The state the Docker daemon reports for one container, indexed by
the poll second (the `ready` loop sleeps 1 s between polls). -/
structure ContainerState where
  status : ℕ → String

/-- The two ways `DockerComposeOrchestrator.ready` can raise: the
`NotFound` branch re-raised as an `OrchestrationException`, and the
`AttributeError` caused by `container = container.reload()` — docker-py
`reload()` returns `None`, so the next `container.status` access in the
loop condition raises. -/
inductive ReadyError where
  | orchestrationNotFound
  | attributeErrorNoneReload
deriving DecidableEq, Repr

/-- One iteration of the service loop in
`DockerComposeOrchestrator.ready`: fetch the container (raising on a
missing one), then run
`while not container.status == "running" and elapsed < timeout`.
The first status check sees the real container; if it is not "running"
and `elapsed (= 0) < timeout`, the loop body sleeps, increments
`elapsed`, and rebinds `container` to `container.reload()`, which is
`None` — so the next loop-condition evaluation raises `AttributeError`.
If the loop is never entered (status already "running", or
`timeout ≤ 0`), `True` is appended unconditionally. -/
def readyPollService (container : Option ContainerState) (timeout : ℕ) :
    Except ReadyError Bool :=
  match container with
  | none => .error .orchestrationNotFound
  | some c =>
    if c.status 0 = "running" then .ok true
    else if 0 < timeout then .error .attributeErrorNoneReload
    else .ok true

/-- `DockerComposeOrchestrator.ready`: loop over the expected services,
resolving each through `service_container_map`; the first raised error
propagates, otherwise the result is `all(all_ready)` — and every element
appended to `all_ready` is the literal `True`. -/
def ready (expectedServices : List String)
    (serviceContainerMap : String → String)
    (containers : String → Option ContainerState) (timeout : ℕ) :
    Except ReadyError Bool :=
  match expectedServices with
  | [] => .ok true
  | s :: rest =>
    match readyPollService (containers (serviceContainerMap s)) timeout with
    | .error e => .error e
    | .ok _ => ready rest serviceContainerMap containers timeout

/-! ### Load generator — src/oxn/loadgen.py -/

/-- One entry of the `stages[]` list of the loadgen section. -/
structure Stage where
  duration : ℚ
  users : ℕ
  spawn_rate : ℕ
deriving DecidableEq, Repr

/-- `CustomLoadTestShape.tick` built by `LoadGenerator._shape_factory`:
walk the stages in order and return `(users, spawn_rate)` of the first
stage with `run_time < stage["duration"]`; falling off the end returns
`None` (which stops the load test). -/
def tick (stages : List Stage) (run_time : ℚ) : Option (ℕ × ℕ) :=
  match stages with
  | [] => none
  | stage :: rest =>
    if run_time < stage.duration then some (stage.users, stage.spawn_rate)
    else tick rest run_time

/-- Spec-side shape for C9: return the `(users, spawn_rate)` of the
first stage whose cumulative duration (the sum of the durations of that
stage and all preceding stages) exceeds the elapsed time. -/
def tickCumulative (stages : List Stage) (run_time : ℚ) : Option (ℕ × ℕ) :=
  go stages 0
where
  go : List Stage → ℚ → Option (ℕ × ℕ)
  | [], _ => none
  | stage :: rest, acc =>
    if run_time < acc + stage.duration then some (stage.users, stage.spawn_rate)
    else go rest (acc + stage.duration)

/-- How `LoadGenerator.start` drives locust. -/
inductive StartMode where
  | shape
  | fixed (user_count : ℕ) (spawn_rate : ℕ)
deriving DecidableEq, Repr

/-- `_read_config` sets `shape_instance` only `if self.stages:` (a
non-`None`, nonempty list); `start` then calls `runner.start_shape()`
when a shape instance exists and otherwise
`runner.start(user_count=1, spawn_rate=1)`. -/
def loadGeneratorStart (stages : Option (List Stage)) : StartMode :=
  match stages with
  | some (_ :: _) => .shape
  | _ => .fixed 1 1

/-! ### Report analyzer — src/oxn/report.py -/

/-- A cell of a DataFrame: a string (labels) or a number (values). -/
inductive CellValue where
  | str (s : String)
  | num (q : ℚ)
deriving DecidableEq, Repr

/-- A DataFrame row: ordered column/value pairs. -/
abbrev DataRow := List (String × CellValue)

/-- Read a named column of a row. -/
def getCol (r : DataRow) (c : String) : Option CellValue :=
  (r.find? (fun p => p.1 = c)).map Prod.snd

/-- A DataFrame: a list of rows. -/
abbrev DataFrame := List DataRow

/-- `dataframe.loc[pred(dataframe[labelColumn])]`: the rows whose value
in the label column satisfies the predicate. -/
def selectRows (df : DataFrame) (labelColumn : String) (p : CellValue → Bool) :
    DataFrame :=
  df.filter (fun r =>
    match getCol r labelColumn with
    | some v => p v
    | none => false)

/-- Project a DataFrame onto one column. -/
def columnValues (df : DataFrame) (c : String) : List CellValue :=
  df.filterMap (fun r => getCol r c)

/-- The arguments `Reporter.compute_welch_ttest` hands to
`scipy.stats.ttest_ind`: the two samples, `equal_var=False`,
`nan_policy="omit"`, and scipy's default `alternative="two-sided"`. -/
structure TTestCall where
  control : List CellValue
  experiment : List CellValue
  equal_var : Bool
  nan_policy : String
  alternative : String
deriving DecidableEq, Repr

/-- `Reporter.compute_welch_ttest` (src/oxn/report.py lines 38-51):
`control = dataframe.loc[dataframe[label_column] != label][value_column]`
and
`experiment = dataframe.loc[dataframe[label_column] == label][value_column]`,
passed to `ttest_ind(control, experiment, equal_var=False,
nan_policy="omit")`. -/
def compute_welch_ttest (dataframe : DataFrame) (label : String)
    (label_column value_column : String) : TTestCall :=
  { control :=
      columnValues (selectRows dataframe label_column (fun v => v ≠ .str label))
        value_column
    experiment :=
      columnValues (selectRows dataframe label_column (fun v => v = .str label))
        value_column
    equal_var := false
    nan_policy := "omit"
    alternative := "two-sided" }

/-- The two response-variable kinds. -/
inductive ResponseKind where
  | trace
  | metric
deriving DecidableEq, Repr

/-- The value-column choice in `Reporter.gather_interaction`:
`"duration"` for a `TraceResponseVariable`, else the metric's name. -/
def interactionValueColumn (kind : ResponseKind) (metric_name : String) : String :=
  match kind with
  | .trace => "duration"
  | .metric => metric_name

/-- `Reporter.gather_interaction`: run the Welch t-test with
`label="NoTreatment"`, `label_column=treatment.name`, and the
kind-dependent value column, over the response's data. -/
def gather_interaction (kind : ResponseKind) (metric_name : String)
    (treatment_name : String) (data : DataFrame) : TTestCall :=
  compute_welch_ttest data "NoTreatment" treatment_name
    (interactionValueColumn kind metric_name)

/-! ### Response labeling — src/oxn/responses.py and src/oxn/runner.py -/

/-- A row of a metric response variable's data: its `timestamp` column
(seconds, float) plus its label columns. -/
structure MetricRow where
  timestamp : ℚ
  cols : List (String × String)
deriving DecidableEq, Repr

/-- A row of a trace response variable's data: its `start_time` column
(span start, microseconds) plus its label columns. -/
structure TraceRow where
  start_time : ℚ
  cols : List (String × String)
deriving DecidableEq, Repr

/-- `self.data[label_column] = ...`: replace the column if present,
append it otherwise. -/
def setCol (cols : List (String × String)) (c v : String) :
    List (String × String) :=
  if cols.any (fun p => p.1 = c) then
    cols.map (fun p => if p.1 = c then (c, v) else p)
  else cols ++ [(c, v)]

/-- Read a label column of a row. -/
def getColS (cols : List (String × String)) (c : String) : Option String :=
  (cols.find? (fun p => p.1 = c)).map Prod.snd

/-- `to_microseconds` from src/oxn/utils.py. -/
def to_microseconds (seconds : ℚ) : ℚ := seconds * 10 ^ 6

/-- `MetricResponseVariable.label`: per row,
`np.where(treatment_start <= timestamp <= treatment_end, label,
"NoTreatment")` written into `label_column`. -/
def metricLabel (data : List MetricRow) (treatment_start treatment_end : ℚ)
    (label_column label : String) : List MetricRow :=
  data.map (fun r =>
    { r with
      cols := setCol r.cols label_column
        (if treatment_start ≤ r.timestamp ∧ r.timestamp ≤ treatment_end
         then label else "NoTreatment") })

/-- `TraceResponseVariable.label`: the treatment interval is scaled to
microseconds and compared against the span `start_time`. -/
def traceLabel (data : List TraceRow) (treatment_start treatment_end : ℚ)
    (label_column label : String) : List TraceRow :=
  data.map (fun r =>
    { r with
      cols := setCol r.cols label_column
        (if r.start_time ≥ to_microseconds treatment_start ∧
            r.start_time ≤ to_microseconds treatment_end
         then label else "NoTreatment") })

/-- The interval of one executed treatment (`start`/`end` UTC seconds)
together with its name. -/
structure TreatmentInterval where
  name : String
  tstart : ℚ
  tend : ℚ
deriving DecidableEq, Repr

/-- `ExperimentRunner._label` labels each variable with
`label_column=treatment.name, label=treatment.name` — metric variant. -/
def runnerLabelMetric (data : List MetricRow) (t : TreatmentInterval) :
    List MetricRow :=
  metricLabel data t.tstart t.tend t.name t.name

/-- `ExperimentRunner._label` — trace variant. -/
def runnerLabelTrace (data : List TraceRow) (t : TreatmentInterval) :
    List TraceRow :=
  traceLabel data t.tstart t.tend t.name t.name

/-! ### Engine run lifecycle — src/oxn/engine.py -/

/-- The externally visible steps of one iteration of `Engine.run`. -/
inductive RunEvent where
  | executeCompileTimeTreatments
  | orchestrate
  | readyCheck
  | cleanCompileTimeTreatments
  | teardown
  | raiseOrchestrationError
  | precondCheck
  | raisePrecondError
  | startLoadGeneration
  | executeRuntimeTreatments
  | observeResponseVariables
  | stopLoadGeneration
  | writeAndReport
deriving DecidableEq, Repr

/-- The event sequence of one iteration of `Engine.run`
(src/oxn/engine.py lines 100-163), as a function of whether
`orchestrator.ready` reports success and whether every treatment's
preconditions hold.  On the readiness-failure path the engine calls
`runner.clean_compile_time_treatments()`, then `orchestrator.teardown()`,
then raises; on a precondition failure it raises with neither cleanup
nor teardown (`Engine.run` installs no try/finally); on the normal path
compile-time cleanup happens right after the runtime treatments, well
before the final `teardown()`. -/
def engineRunEvents (readyOk precondOk : Bool) : List RunEvent :=
  [.executeCompileTimeTreatments, .orchestrate, .readyCheck] ++
  if !readyOk then
    [.cleanCompileTimeTreatments, .teardown, .raiseOrchestrationError]
  else
    [.precondCheck] ++
    if !precondOk then [.raisePrecondError]
    else
      [.startLoadGeneration, .executeRuntimeTreatments,
       .cleanCompileTimeTreatments, .observeResponseVariables,
       .stopLoadGeneration, .writeAndReport, .teardown]

/-! ### Runner treatment building — src/oxn/runner.py -/

/-- One entry of the spec's `treatments[]` list: `{name: {action: …,
params: …}}`. -/
structure TreatmentDescription where
  name : String
  action : String
deriving DecidableEq, Repr

/-- The sections of the loaded experiment specification relevant to
`_build_treatments`. -/
structure ExperimentSpec where
  treatments : List TreatmentDescription
deriving DecidableEq, Repr

/-- `ExperimentRunner._build_treatments`:
`treatment_section = self.config["experiment"]["treatments"]` aliases
the spec's own list, and `random.shuffle(treatment_section)` permutes it
in place, so the spec object afterwards carries the shuffled list.  The
`shuffled` argument models the permutation the RNG produced.  Returns
the spec as it stands after the call together with the runner's
insertion-ordered treatments map (name, action). -/
def build_treatments (spec : ExperimentSpec) (random_treatment_order : Bool)
    (shuffled : List TreatmentDescription) :
    ExperimentSpec × List (String × String) :=
  let treatment_section :=
    if random_treatment_order then shuffled else spec.treatments
  ({ spec with treatments := treatment_section },
   treatment_section.map (fun t => (t.name, t.action)))

/-! ### Prefix-indexed store — src/oxn/store.py

The `Node`/`Trie` classes.  A node's `children` dict is modelled as an
insertion-ordered association list (Python dicts preserve insertion
order; updating an existing key keeps its position, a new key is
appended).  A node's `character` is a string: `""` for the root,
a single character for every other node. -/

/-- `Node` from src/oxn/store.py. -/
inductive TrieNode where
  | mk (character : List Char) (isEnd : Bool) (children : List (Char × TrieNode))

/-- The `character` attribute. -/
def TrieNode.character : TrieNode → List Char
  | .mk c _ _ => c

/-- The `end` attribute (leaf marker). -/
def TrieNode.isEnd : TrieNode → Bool
  | .mk _ e _ => e

/-- The `children` attribute. -/
def TrieNode.children : TrieNode → List (Char × TrieNode)
  | .mk _ _ ch => ch

/-- `character in node.children` / `node.children[character]`. -/
def childLookup (kids : List (Char × TrieNode)) (c : Char) : Option TrieNode :=
  (kids.find? (fun p => p.1 = c)).map Prod.snd

/-- `node.children[character] = new_node` for an existing key: the value
is replaced, the position kept. -/
def childUpdate (kids : List (Char × TrieNode)) (c : Char) (n : TrieNode) :
    List (Char × TrieNode) :=
  kids.map (fun p => if p.1 = c then (c, n) else p)

/-- The chain of fresh nodes `Trie.insert` creates once a character is
missing: from then on every character gets a new node, and the last node
is marked terminal. -/
def freshChain (c : Char) (cs : List Char) : TrieNode :=
  match cs with
  | [] => .mk [c] true []
  | c2 :: rest => .mk [c] false [(c2, freshChain c2 rest)]

/-- `Trie.insert`, descending from an arbitrary node: walk the key's
characters, descending into an existing child or creating a fresh one,
and mark the final node terminal. -/
def insertAux (node : TrieNode) (cs : List Char) : TrieNode :=
  match node, cs with
  | .mk ch _ kids, [] => .mk ch true kids
  | .mk ch e kids, c :: rest =>
    match childLookup kids c with
    | some child => .mk ch e (childUpdate kids c (insertAux child rest))
    | none => .mk ch e (kids ++ [(c, freshChain c rest)])

/-- `Trie.__init__` (with no disk file): `self.root = Node("")`. -/
def emptyRoot : TrieNode := .mk [] false []

/-- `Trie.insert(store_entry)` on the root. -/
def trieInsert (root : TrieNode) (key : List Char) : TrieNode :=
  insertAux root key

/-- A trie holding exactly the given keys, inserted in order. -/
def buildTrie (keys : List (List Char)) : TrieNode :=
  keys.foldl insertAux emptyRoot

mutual

/-- `Trie.depth_first_search(node, prefix)`: if the node is terminal,
collect `prefix + node.character`; then recurse into the children with
prefix `prefix + node.character`. -/
def depth_first_search (node : TrieNode) (pre : List Char) : List (List Char) :=
  match node with
  | .mk c e kids =>
    (if e then [pre ++ c] else []) ++ dfsChildren kids (pre ++ c)

/-- The `for child in node.children.values()` loop of
`depth_first_search`. -/
def dfsChildren (kids : List (Char × TrieNode)) (pre : List Char) :
    List (List Char) :=
  match kids with
  | [] => []
  | (_, n) :: rest => depth_first_search n pre ++ dfsChildren rest pre

end

/-- The descent loop of `Trie.query`: follow the item's characters from
the given node, `None` when a character is missing. -/
def findNode (node : TrieNode) (cs : List Char) : Option TrieNode :=
  match cs with
  | [] => some node
  | c :: rest =>
    match childLookup node.children c with
    | some child => findNode child rest
    | none => none

/-- Python string `<=` on code points (lexicographic). -/
def charListLe : List Char → List Char → Bool
  | [], _ => true
  | _ :: _, [] => false
  | a :: as, b :: bs => if a = b then charListLe as bs else decide (a < b)

/-- `Trie.query(item)`: descend the trie along the item (returning `[]`
on a missing character), depth-first collect all terminal descendants
starting from prefix `item[:-1]`, and return them sorted descending
(`sorted(keys, reverse=True)`). -/
def trieQuery (root : TrieNode) (item : List Char) : List (List Char) :=
  match findNode root item with
  | none => []
  | some node =>
    (depth_first_search node item.dropLast).mergeSort
      (fun a b => charListLe b a)

/-- Key membership semantics of a trie node: the key's path exists and
ends at a terminal node. -/
def memTrie (node : TrieNode) (key : List Char) : Bool :=
  match findNode node key with
  | some n => n.isEnd
  | none => false

/-- Structural well-formedness of trie nodes as `Trie.insert` builds
them: children's keys are distinct, and each child stores exactly its
key as its character. -/
inductive SubWF : TrieNode → Prop where
  | mk : ∀ c e kids, (kids.map Prod.fst).Nodup →
      (∀ p ∈ kids, TrieNode.character p.2 = [p.1]) →
      (∀ p ∈ kids, SubWF p.2) → SubWF (.mk c e kids)

/-- Well-formedness of a whole trie: the root carries the empty
character, and the structure is well formed. -/
def RootWF (root : TrieNode) : Prop :=
  root.character = [] ∧ SubWF root

/-- Tree induction principle for trie nodes (the children sit inside a
nested list, so this is derived by well-founded recursion on size). -/
def TrieNode.inductionOn {motive : TrieNode → Prop}
    (step : ∀ c e kids, (∀ p ∈ kids, motive (Prod.snd p)) →
      motive (.mk c e kids)) :
    ∀ n, motive n
  | .mk c e kids => by
    refine step c e kids (fun p hp => ?_)
    exact TrieNode.inductionOn step p.2
termination_by n => sizeOf n
decreasing_by
  have h1 : sizeOf p < sizeOf kids := List.sizeOf_lt_of_mem hp
  obtain ⟨a, b⟩ := p
  simp at h1 ⊢
  omega

/-- `get_dataframe(key)` from src/oxn/store.py: query the trie for the
key; only when the result list is non-empty open the HDF store and get
the key.  The boolean records whether the table store was opened. -/
def get_dataframe (root : TrieNode) (storeGet : List Char → Option DataFrame)
    (key : List Char) : Option DataFrame × Bool :=
  let results := trieQuery root key
  if results ≠ [] then (storeGet key, true) else (none, false)

/-! ## Theorems -/

/-! ### C8 — effective service set -/

/-- Claim C8: for every compose service set, include list and exclude
list, the orchestrator's effective service set satisfies: when include
and exclude are disjoint and both non-empty,
`result = services ∩ include − exclude`; with only exclude,
`result = services − exclude`; with only include,
`result = services ∩ include`; with neither, `result = services`. -/
theorem C8_effective_service_set (services : Finset String)
    (includeServices excludeServices : List String) :
    (includeServices ≠ [] → excludeServices ≠ [] →
      (∀ x ∈ includeServices, x ∉ excludeServices) →
      ∀ s, s ∈ build_sue_service_names services includeServices excludeServices ↔
        (s ∈ services ∧ s ∈ includeServices ∧ s ∉ excludeServices)) ∧
    (includeServices = [] → excludeServices ≠ [] →
      ∀ s, s ∈ build_sue_service_names services includeServices excludeServices ↔
        (s ∈ services ∧ s ∉ excludeServices)) ∧
    (includeServices ≠ [] → excludeServices = [] →
      ∀ s, s ∈ build_sue_service_names services includeServices excludeServices ↔
        (s ∈ services ∧ s ∈ includeServices)) ∧
    (includeServices = [] → excludeServices = [] →
      build_sue_service_names services includeServices excludeServices =
        services) := by
  refine ⟨fun h1 h2 _ s => ?_, fun h1 h2 s => ?_, fun h1 h2 s => ?_,
    fun h1 h2 => ?_⟩ <;>
    simp [build_sue_service_names, h1, h2, Finset.mem_sdiff, Finset.mem_inter,
      List.mem_toFinset, and_assoc]

/-- Witness for C8 at a concrete configuration. -/
theorem C8_witness :
    "a" ∈ build_sue_service_names {"a", "b"} ["a"] ["b"] ↔
      ("a" ∈ ({"a", "b"} : Finset String) ∧ "a" ∈ ["a"] ∧ "a" ∉ ["b"]) :=
  (C8_effective_service_set {"a", "b"} ["a"] ["b"]).1 (by decide) (by decide)
    (by decide) "a"

/-! ### C9 — load-test shape -/

/-- Claim C9 counterexample: with stages of duration 10 and 10 and
elapsed time 15, the claim's cumulative rule selects the second stage
(cumulative duration 20 > 15), but the shape's `tick` compares the
elapsed time against each stage's own `duration` field and returns
`None`. -/
theorem C9_counterexample :
    tickCumulative [⟨10, 1, 1⟩, ⟨10, 5, 5⟩] 15 = some (5, 5) ∧
    tick [⟨10, 1, 1⟩, ⟨10, 5, 5⟩] 15 = none ∧
    (none : Option (ℕ × ℕ)) ≠ some (5, 5) := by
  refine ⟨?_, ?_, by simp⟩
  · norm_num [tickCumulative, tickCumulative.go]
  · norm_num [tick]

/-- Claim C9 (amended): at elapsed time `t` the shape returns the
`(users, spawn_rate)` of the first stage whose own `duration` field
exceeds `t` (stage durations are absolute cut-offs, not summed), and
`None` when no stage qualifies; when no stages are present the generator
runs a fixed 1 user at spawn rate 1. -/
theorem C9_shape_tick (stages : List Stage) (t : ℚ) :
    (tick stages t =
      (stages.find? (fun st => t < st.duration)).map
        (fun st => (st.users, st.spawn_rate))) ∧
    loadGeneratorStart none = .fixed 1 1 ∧
    loadGeneratorStart (some []) = .fixed 1 1 ∧
    (∀ st rest, loadGeneratorStart (some (st :: rest)) = .shape) := by
  refine ⟨?_, rfl, rfl, fun st rest => rfl⟩
  induction stages with
  | nil => rfl
  | cons st rest ih =>
    by_cases h : t < st.duration
    · simp [tick, List.find?, h]
    · simp [tick, List.find?, h, ih]

/-! ### C4 — compile-time cleanup versus teardown -/

/-- Claim C4 counterexample: on the readiness-failure path of
`Engine.run`, `clean_compile_time_treatments` is invoked strictly
before `orchestrator.teardown()` — the opposite of the claimed order. -/
theorem C4_counterexample :
    RunEvent.cleanCompileTimeTreatments ∈ engineRunEvents false true ∧
    RunEvent.teardown ∈ engineRunEvents false true ∧
    (engineRunEvents false true).indexOf RunEvent.cleanCompileTimeTreatments <
      (engineRunEvents false true).indexOf RunEvent.teardown := by
  decide

/-- Claim C4 (amended): on every exit path of a run on which both
compile-time cleanup and teardown occur (the readiness-failure path and
the normal path), `clean_compile_time_treatments` precedes the
orchestrator's teardown; on the precondition-failure path neither
occurs. -/
theorem C4_cleanup_precedes_teardown (readyOk precondOk : Bool)
    (h1 : RunEvent.cleanCompileTimeTreatments ∈ engineRunEvents readyOk precondOk)
    (h2 : RunEvent.teardown ∈ engineRunEvents readyOk precondOk) :
    (engineRunEvents readyOk precondOk).indexOf
        RunEvent.cleanCompileTimeTreatments <
      (engineRunEvents readyOk precondOk).indexOf RunEvent.teardown := by
  revert h1 h2
  cases readyOk <;> cases precondOk <;> decide

/-- Witness for C4 (amended) on the normal path. -/
theorem C4_witness :
    (engineRunEvents true true).indexOf RunEvent.cleanCompileTimeTreatments <
      (engineRunEvents true true).indexOf RunEvent.teardown :=
  C4_cleanup_precedes_teardown true true (by decide) (by decide)

/-! ### C5 — spec immutability under treatment building -/

/-- Claim C5 counterexample: `_build_treatments` with randomized
treatment order shuffles the spec's own treatments list in place; with a
two-element treatments section and a swapping shuffle, the spec after
the call differs from the loaded spec. -/
theorem C5_counterexample :
    (build_treatments ⟨[⟨"a", "pause"⟩, ⟨"b", "kill"⟩]⟩ true
        [⟨"b", "kill"⟩, ⟨"a", "pause"⟩]).1 ≠
      ⟨[⟨"a", "pause"⟩, ⟨"b", "kill"⟩]⟩ ∧
    List.Perm [(⟨"b", "kill"⟩ : TreatmentDescription), ⟨"a", "pause"⟩]
      [⟨"a", "pause"⟩, ⟨"b", "kill"⟩] := by
  constructor
  · decide
  · decide

/-- Claim C5 (amended): building the runner's treatments without
randomized order leaves the spec unchanged (and reads the treatments in
spec order); with randomized order the spec's treatments section is
replaced in place by the shuffled permutation, so the spec is mutated
whenever the shuffle moves an element. -/
theorem C5_build_treatments (spec : ExperimentSpec)
    (shuffled : List TreatmentDescription) :
    (build_treatments spec false shuffled).1 = spec ∧
    (build_treatments spec false shuffled).2 =
      spec.treatments.map (fun t => (t.name, t.action)) ∧
    (build_treatments spec true shuffled).1.treatments = shuffled := by
  exact ⟨rfl, rfl, rfl⟩

/-! ### C2 — orchestrator readiness -/

/-- Claim C2 (code bug): with one expected service whose container
exists but reports state "created" at every poll, `ready` with timeout 0
returns `True` although the container is not running (every element
appended to `all_ready` is the literal `True`); with a positive timeout
the polling loop raises `AttributeError` instead of waiting, because
`container = container.reload()` rebinds the loop variable to `None`;
and a missing container raises the orchestration error as claimed. -/
theorem C2_ready_bug :
    ready ["frontend"] (fun s => s) (fun _ => some ⟨fun _ => "created"⟩) 0 =
      .ok true ∧
    ("created" : String) ≠ "running" ∧
    ready ["frontend"] (fun s => s) (fun _ => some ⟨fun _ => "created"⟩) 120 =
      .error .attributeErrorNoneReload ∧
    ready ["frontend"] (fun s => s) (fun _ => none) 120 =
      .error .orchestrationNotFound := by
  refine ⟨rfl, by decide, rfl, rfl⟩

/-! ### C1 — Welch t-test sample selection -/

/-- Claim C1 counterexample: over a trace frame with one row labeled
"pause" (duration 5) and one labeled "NoTreatment" (duration 3), the
claim predicts control sample `[3]` (the "NoTreatment" rows); the code
builds the control sample from the rows whose label differs from
"NoTreatment", yielding `[5]`. -/
theorem C1_counterexample :
    (gather_interaction .trace "latency" "pause"
        [[("pause", .str "pause"), ("duration", .num 5)],
         [("pause", .str "NoTreatment"), ("duration", .num 3)]]).control =
      [.num 5] ∧
    columnValues
      (List.filter
        (fun r => getCol r "pause" = some (.str "NoTreatment"))
        [[("pause", .str "pause"), ("duration", .num 5)],
         [("pause", .str "NoTreatment"), ("duration", .num 3)]]) "duration" =
      [.num 3] ∧
    CellValue.num 5 ≠ CellValue.num 3 := by
  refine ⟨?_, ?_, ?_⟩
  · rfl
  · rfl
  · simp only [ne_eq, CellValue.num.injEq]
    norm_num

/-- Claim C1 (amended): the analyzer performs a two-sided
(`alternative="two-sided"` scipy default) Welch's t-test
(`equal_var=False`) with `nan_policy="omit"` whose *experiment* sample
consists of exactly the rows labeled "NoTreatment" and whose *control*
sample consists of exactly the rows whose label differs from
"NoTreatment" — under the labeling invariant, exactly the rows labeled
with the treatment's name; the value column is `duration` for trace
variables and the metric's name for metric variables. -/
theorem C1_welch_partition (df : DataFrame) (kind : ResponseKind)
    (metric_name treatment_name : String)
    (hname : treatment_name ≠ "NoTreatment")
    (hrows : ∀ r ∈ df,
      getCol r treatment_name = some (.str treatment_name) ∨
      getCol r treatment_name = some (.str "NoTreatment")) :
    (gather_interaction kind metric_name treatment_name df).control =
      columnValues
        (df.filter
          (fun r => getCol r treatment_name = some (.str treatment_name)))
        (interactionValueColumn kind metric_name) ∧
    (gather_interaction kind metric_name treatment_name df).experiment =
      columnValues
        (df.filter
          (fun r => getCol r treatment_name = some (.str "NoTreatment")))
        (interactionValueColumn kind metric_name) ∧
    (gather_interaction kind metric_name treatment_name df).equal_var = false ∧
    (gather_interaction kind metric_name treatment_name df).nan_policy =
      "omit" ∧
    (gather_interaction kind metric_name treatment_name df).alternative =
      "two-sided" ∧
    interactionValueColumn .trace metric_name = "duration" ∧
    interactionValueColumn .metric metric_name = metric_name := by
  have hstr : CellValue.str treatment_name ≠ CellValue.str "NoTreatment" := by
    intro h
    exact hname (CellValue.str.inj h)
  have hctl :
      selectRows df treatment_name (fun v => v ≠ .str "NoTreatment") =
      df.filter
        (fun r => getCol r treatment_name = some (.str treatment_name)) := by
    unfold selectRows
    apply List.filter_congr
    intro r hr
    rcases hrows r hr with h | h
    · simp [h, hstr]
    · simp [h, Ne.symm hname]
  have hexp :
      selectRows df treatment_name (fun v => v = .str "NoTreatment") =
      df.filter
        (fun r => getCol r treatment_name = some (.str "NoTreatment")) := by
    unfold selectRows
    apply List.filter_congr
    intro r hr
    rcases hrows r hr with h | h
    · simp [h, hstr]
    · simp [h]
  refine ⟨?_, ?_, rfl, rfl, rfl, rfl, rfl⟩
  · show columnValues
      (selectRows df treatment_name (fun v => v ≠ .str "NoTreatment")) _ = _
    rw [hctl]
  · show columnValues
      (selectRows df treatment_name (fun v => v = .str "NoTreatment")) _ = _
    rw [hexp]

/-- Witness for C1 (amended) over a concrete labeled trace frame. -/
theorem C1_witness :
    (gather_interaction .trace "latency" "pause"
        [[("pause", .str "pause"), ("duration", .num 5)],
         [("pause", .str "NoTreatment"), ("duration", .num 3)]]).experiment =
      columnValues
        (List.filter
          (fun r => getCol r "pause" = some (.str "NoTreatment"))
          [[("pause", .str "pause"), ("duration", .num 5)],
           [("pause", .str "NoTreatment"), ("duration", .num 3)]]) "duration" :=
  (C1_welch_partition
    [[("pause", .str "pause"), ("duration", .num 5)],
     [("pause", .str "NoTreatment"), ("duration", .num 3)]]
    .trace "latency" "pause" (by decide) (by decide)).2.1

/-! ### C3 — treatment labeling of response data -/

theorem getColS_map_update (cols : List (String × String)) (c v : String)
    (h : cols.any (fun p => p.1 = c) = true) :
    getColS (cols.map (fun p => if p.1 = c then (c, v) else p)) c = some v := by
  induction cols with
  | nil => simp at h
  | cons p ps ih =>
    by_cases hp : p.1 = c
    · unfold getColS
      rw [List.map_cons, if_pos hp, List.find?_cons_of_pos _ (by simp)]
      rfl
    · have h' : ps.any (fun q => q.1 = c) = true := by
        cases hq : ps.any (fun q => q.1 = c) with
        | true => rfl
        | false =>
          rw [List.any_cons, hq] at h
          simp [hp] at h
      unfold getColS
      rw [List.map_cons, if_neg hp, List.find?_cons_of_neg _ (by simp [hp])]
      exact ih h'

theorem getColS_append_new (cols : List (String × String)) (c v : String)
    (h : cols.any (fun p => p.1 = c) = false) :
    getColS (cols ++ [(c, v)]) c = some v := by
  induction cols with
  | nil =>
    unfold getColS
    rw [List.nil_append, List.find?_cons_of_pos _ (by simp)]
    rfl
  | cons p ps ih =>
    simp only [List.any_cons, Bool.or_eq_false_iff] at h
    obtain ⟨h1, h2⟩ := h
    unfold getColS
    rw [List.cons_append, List.find?_cons_of_neg _ (by simpa using h1)]
    exact ih h2

/-- `self.data[label_column] = values` makes the column read back the
assigned value. -/
theorem getColS_setCol (cols : List (String × String)) (c v : String) :
    getColS (setCol cols c v) c = some v := by
  unfold setCol
  by_cases h : cols.any (fun p => p.1 = c) = true
  · rw [if_pos h]
    exact getColS_map_update cols c v h
  · rw [if_neg h]
    exact getColS_append_new cols c v ((Bool.not_eq_true _) ▸ h)

/-- Claim C3 counterexample: for a treatment literally named
"NoTreatment" with interval [0, 10], a metric row with timestamp 100
(outside the interval) still reads the value `t.name` in column
`t.name`, so "value = t.name iff timestamp ∈ [t.start, t.end]" fails. -/
theorem C3_counterexample :
    runnerLabelMetric [⟨100, []⟩] ⟨"NoTreatment", 0, 10⟩ =
      [⟨100, [("NoTreatment", "NoTreatment")]⟩] ∧
    ¬((0 : ℚ) ≤ 100 ∧ (100 : ℚ) ≤ 10) := by
  constructor
  · norm_num [runnerLabelMetric, metricLabel, setCol]
  · norm_num

/-- Claim C3 (amended): provided the treatment's name is not the literal
string "NoTreatment", after labeling every row carries a column named
`t.name` whose value is drawn from `{t.name, "NoTreatment"}`, and the
value is `t.name` iff the row's timestamp in the variable's native unit
lies in the closed treatment interval — `[t.start, t.end]` in seconds
for metric rows, `[t.start·10⁶, t.end·10⁶]` in microseconds against the
span `start_time` for trace rows. -/
theorem C3_labeling (dataM : List MetricRow) (dataT : List TraceRow)
    (t : TreatmentInterval) (hname : t.name ≠ "NoTreatment") :
    (∀ r ∈ runnerLabelMetric dataM t, ∃ v,
      getColS r.cols t.name = some v ∧
      (v = t.name ∨ v = "NoTreatment") ∧
      (v = t.name ↔ t.tstart ≤ r.timestamp ∧ r.timestamp ≤ t.tend)) ∧
    (∀ r ∈ runnerLabelTrace dataT t, ∃ v,
      getColS r.cols t.name = some v ∧
      (v = t.name ∨ v = "NoTreatment") ∧
      (v = t.name ↔ to_microseconds t.tstart ≤ r.start_time ∧
        r.start_time ≤ to_microseconds t.tend)) := by
  constructor
  · intro r hr
    unfold runnerLabelMetric metricLabel at hr
    rw [List.mem_map] at hr
    obtain ⟨r0, -, hr0⟩ := hr
    subst hr0
    refine ⟨_, getColS_setCol r0.cols t.name _, ?_, ?_⟩
    · split
      · exact Or.inl rfl
      · exact Or.inr rfl
    · split
      · rename_i hcond
        simpa using hcond
      · rename_i hcond
        simp only [hcond, iff_false]
        exact Ne.symm hname
  · intro r hr
    unfold runnerLabelTrace traceLabel at hr
    rw [List.mem_map] at hr
    obtain ⟨r0, -, hr0⟩ := hr
    subst hr0
    refine ⟨_, getColS_setCol r0.cols t.name _, ?_, ?_⟩
    · split
      · exact Or.inl rfl
      · exact Or.inr rfl
    · split
      · rename_i hcond
        simp only [ge_iff_le] at hcond
        simpa using hcond
      · rename_i hcond
        simp only [ge_iff_le] at hcond
        simp only [hcond, iff_false]
        exact Ne.symm hname

/-! ### C7 — duration-string parsing -/

theorem takeWhile_digits_append (ds rest : List Char)
    (h1 : ∀ c ∈ ds, c.isDigit = true)
    (h2 : ∀ c cs, rest = c :: cs → c.isDigit = false) :
    (ds ++ rest).takeWhile Char.isDigit = ds ∧
    (ds ++ rest).dropWhile Char.isDigit = rest := by
  induction ds with
  | nil =>
    simp only [List.nil_append]
    cases rest with
    | nil => simp
    | cons r rs =>
      have hr := h2 r rs rfl
      constructor
      · rw [List.takeWhile_cons, hr]
        simp
      · rw [List.dropWhile_cons, hr]
        simp
  | cons d ds' ih =>
    have hd : d.isDigit = true := h1 d (by simp)
    obtain ⟨ihT, ihD⟩ := ih (fun c hc => h1 c (List.mem_cons_of_mem d hc))
    constructor
    · rw [List.cons_append, List.takeWhile_cons, hd]
      simp [ihT]
    · rw [List.cons_append, List.dropWhile_cons, hd]
      simp [ihD]

/-- The regex alternation matches exactly the rendered unit token when
what follows is empty or starts with a digit (as in any well-formed
duration string). -/
theorem matchUnit_chars (u : TimeUnit) (rest : List Char)
    (h : rest = [] ∨ ∃ c cs, rest = c :: cs ∧ c.isDigit = true) :
    matchUnit (TimeUnit.chars u ++ rest) = some (u, rest) := by
  have hs : ∀ c cs, rest = c :: cs → c ≠ 's' := by
    intro c cs hr he
    rcases h with h | ⟨c', cs', hr', hc'⟩
    · rw [h] at hr
      cases hr
    · rw [hr] at hr'
      injection hr' with h1 h2
      subst he
      subst h1
      exact absurd hc' (by decide)
  cases u with
  | us => rfl
  | ms => rfl
  | s => rfl
  | h => rfl
  | d => rfl
  | m =>
    cases rest with
    | nil => rfl
    | cons c cs =>
      have hc : c ≠ 's' := hs c cs rfl
      show (if c = 's' then some (TimeUnit.ms, cs)
        else some (TimeUnit.m, c :: cs)) = some (TimeUnit.m, c :: cs)
      rw [if_neg hc]

/-- `matchUnit` succeeds only by consuming exactly a unit token. -/
theorem matchUnit_inv (dw : List Char) (u0 : TimeUnit) (r0 : List Char)
    (hm0 : matchUnit dw = some (u0, r0)) : dw = TimeUnit.chars u0 ++ r0 := by
  cases dw with
  | nil => simp [matchUnit] at hm0
  | cons c1 rest1 =>
    simp only [matchUnit] at hm0
    split_ifs at hm0 with h1 h2 h3 h4 h5
    · split at hm0
      · rename_i r2 rest2
        split_ifs at hm0 with h6
        cases hm0
        subst h1
        subst h6
        rfl
      · cases hm0
    · split at hm0
      · rename_i r2 rest2
        split_ifs at hm0 with h6
        · cases hm0
          subst h2
          subst h6
          rfl
        · cases hm0
          subst h2
          rfl
      · cases hm0
        subst h2
        rfl
    · cases hm0
      subst h3
      rfl
    · cases hm0
      subst h4
      rfl
    · cases hm0
      subst h5
      rfl

/-- `tryMatch` on a well-formed leading group consumes exactly the
group. -/
theorem tryMatch_group (dsc : List Char) (u : TimeUnit) (rest : List Char)
    (hne : dsc ≠ []) (hdig : ∀ c ∈ dsc, c.isDigit = true)
    (hrest : rest = [] ∨ ∃ c cs, rest = c :: cs ∧ c.isDigit = true) :
    tryMatch (dsc ++ (TimeUnit.chars u ++ rest)) =
      some ((digitsVal dsc, u), rest) := by
  have hchars : ∃ ch cht, TimeUnit.chars u = ch :: cht ∧ ch.isDigit = false := by
    cases u <;> exact ⟨_, _, rfl, by decide⟩
  obtain ⟨ch, cht, hch, hchd⟩ := hchars
  have hhead : ∀ c cs, TimeUnit.chars u ++ rest = c :: cs →
      c.isDigit = false := by
    intro c cs hcc
    rw [hch] at hcc
    injection hcc with hc1 hc2
    rw [← hc1]
    exact hchd
  obtain ⟨hT, hD⟩ :=
    takeWhile_digits_append dsc (TimeUnit.chars u ++ rest) hdig hhead
  unfold tryMatch
  rw [hT, hD, if_neg hne, matchUnit_chars u rest hrest]

/-- `re.findall` over a well-formed duration string recovers exactly its
(value, unit) groups. -/
theorem findAll_renderGroups (gs : List (List Char × TimeUnit))
    (h : ∀ g ∈ gs, GoodGroup g) :
    findAll (renderGroups gs) = gs.map (fun g => (digitsVal g.1, g.2)) := by
  induction gs with
  | nil =>
    rw [show renderGroups ([] : List (List Char × TimeUnit)) = [] from rfl,
      findAll.eq_def]
    rfl
  | cons g gs' ih =>
    obtain ⟨g1, g2⟩ := g
    obtain ⟨hne, hdig⟩ := h (g1, g2) (by simp)
    have hrest : renderGroups gs' = [] ∨
        ∃ c cs, renderGroups gs' = c :: cs ∧ c.isDigit = true := by
      cases gs' with
      | nil => exact Or.inl rfl
      | cons g' gs'' =>
        obtain ⟨hne', hdig'⟩ := h g' (by simp)
        cases hg1 : g'.1 with
        | nil => exact absurd hg1 hne'
        | cons c cs' =>
          refine Or.inr ⟨c, cs' ++ g'.2.chars ++ renderGroups gs'', ?_, ?_⟩
          · simp [renderGroups, hg1]
          · exact hdig' c (by simp [hg1])
    have htm := tryMatch_group g1 g2 (renderGroups gs') hne hdig hrest
    have hrg : renderGroups ((g1, g2) :: gs') =
        g1 ++ (TimeUnit.chars g2 ++ renderGroups gs') := by
      simp [renderGroups]
    cases g1 with
    | nil => exact absurd rfl hne
    | cons d ds =>
      rw [hrg, List.cons_append, findAll.eq_def]
      simp only
      rw [List.cons_append] at htm
      rw [htm]
      simp only
      rw [ih (fun g hg => h g (List.mem_cons_of_mem _ hg)), List.map_cons]

theorem foldl_add_sum (f : (ℕ × TimeUnit) → ℚ) (l : List (ℕ × TimeUnit)) :
    ∀ a : ℚ, l.foldl (fun acc g => acc + f g) a = a + (l.map f).sum := by
  induction l with
  | nil =>
    intro a
    simp
  | cons g l' ih =>
    intro a
    simp [List.foldl_cons, ih, add_assoc]

/-- Claim C7: for every well-formed duration string (a concatenation of
(value, unit) groups matching the regex), `time_string_to_seconds`
returns the sum over all matched groups of the value times the unit's
seconds factor; "10m30s" evaluates to 630 and "0m" to 0; and the
duration validator accepts only strings containing a unit token. -/
theorem C7_time_string_to_seconds :
    (∀ gs : List (List Char × TimeUnit), gs ≠ [] → (∀ g ∈ gs, GoodGroup g) →
      time_string_to_seconds (renderGroups gs) =
        (gs.map (fun g => (digitsVal g.1 : ℚ) * secondsMap g.2)).sum) ∧
    time_string_to_seconds ("10m30s".toList) = 630 ∧
    time_string_to_seconds ("0m".toList) = 0 ∧
    (∀ cs : List Char, validate_time_string cs = true →
      ∃ pre u post, cs = pre ++ TimeUnit.chars u ++ post) := by
  have hmain : ∀ gs : List (List Char × TimeUnit), (∀ g ∈ gs, GoodGroup g) →
      time_string_to_seconds (renderGroups gs) =
        (gs.map (fun g => (digitsVal g.1 : ℚ) * secondsMap g.2)).sum := by
    intro gs hgs
    unfold time_string_to_seconds
    rw [findAll_renderGroups gs hgs, foldl_add_sum, List.map_map, zero_add]
    rfl
  refine ⟨fun gs _ hgs => hmain gs hgs, ?_, ?_, ?_⟩
  · have h1 := hmain [(['1', '0'], .m), (['3', '0'], .s)] (by decide)
    rw [show ("10m30s".toList) =
      renderGroups [(['1', '0'], .m), (['3', '0'], .s)] from rfl, h1]
    have e1 : digitsVal ['1', '0'] = 10 := by decide
    have e2 : digitsVal ['3', '0'] = 30 := by decide
    simp [e1, e2, secondsMap]
    norm_num
  · have h1 := hmain [(['0'], .m)] (by decide)
    rw [show ("0m".toList) = renderGroups [(['0'], .m)] from rfl, h1]
    have e1 : digitsVal ['0'] = 0 := by decide
    simp [e1, secondsMap]
  · intro cs hv
    unfold validate_time_string at hv
    rw [Option.isSome_iff_exists] at hv
    obtain ⟨⟨⟨n, u⟩, rest2⟩, htm⟩ := hv
    refine ⟨cs.takeWhile Char.isDigit, u, rest2, ?_⟩
    unfold tryMatch at htm
    by_cases hds : cs.takeWhile Char.isDigit = []
    · simp [hds] at htm
    · rw [if_neg hds] at htm
      split at htm
      · rename_i u' r2 hm
        simp only [Option.some.injEq, Prod.mk.injEq] at htm
        obtain ⟨⟨-, hu⟩, hr⟩ := htm
        subst hu
        subst hr
        have hdw := matchUnit_inv _ _ _ hm
        rw [List.append_assoc, ← hdw, List.takeWhile_append_dropWhile]
      · simp at htm

/-- Witness for C7 at the concrete string "10m30s". -/
theorem C7_witness :
    time_string_to_seconds
        (renderGroups [(['1', '0'], TimeUnit.m), (['3', '0'], TimeUnit.s)]) =
      (([(['1', '0'], TimeUnit.m), (['3', '0'], TimeUnit.s)]).map
        (fun g => (digitsVal g.1 : ℚ) * secondsMap g.2)).sum :=
  C7_time_string_to_seconds.1 _ (by decide) (by decide)

/-- Witness for C3 (amended): a metric row at timestamp 5 labeled by a
treatment "pause" over [0, 10]. -/
theorem C3_witness :
    ∃ v, getColS [("pause", "pause")] "pause" = some v ∧
      (v = "pause" ∨ v = "NoTreatment") ∧
      (v = "pause" ↔ (0 : ℚ) ≤ 5 ∧ (5 : ℚ) ≤ 10) :=
  (C3_labeling [⟨5, []⟩] [] ⟨"pause", 0, 10⟩ (by decide)).1
    ⟨5, [("pause", "pause")]⟩
    (by norm_num [runnerLabelMetric, metricLabel, setCol])

/-! ### C6 / C10 — trie lemmas -/

theorem childLookup_cons_self {p : Char × TrieNode} {ps : List (Char × TrieNode)}
    {c : Char} (h : p.1 = c) : childLookup (p :: ps) c = some p.2 := by
  unfold childLookup
  rw [List.find?_cons_of_pos _ (by simp [h])]
  rfl

theorem childLookup_cons_ne {p : Char × TrieNode} {ps : List (Char × TrieNode)}
    {c : Char} (h : p.1 ≠ c) : childLookup (p :: ps) c = childLookup ps c := by
  unfold childLookup
  rw [List.find?_cons_of_neg _ (by simp [h])]

theorem childLookup_mem {kids : List (Char × TrieNode)} {c : Char} {n : TrieNode}
    (h : childLookup kids c = some n) : (c, n) ∈ kids := by
  induction kids with
  | nil => simp [childLookup] at h
  | cons p ps ih =>
    by_cases hp : p.1 = c
    · rw [childLookup_cons_self hp] at h
      injection h with h1
      subst h1
      subst hp
      exact List.mem_cons_self p ps
    · rw [childLookup_cons_ne hp] at h
      exact List.mem_cons_of_mem p (ih h)

theorem childLookup_eq_none {kids : List (Char × TrieNode)} {c : Char}
    (h : childLookup kids c = none) : ∀ p ∈ kids, p.1 ≠ c := by
  induction kids with
  | nil => intro p hp; cases hp
  | cons p ps ih =>
    intro q hq
    by_cases hp : p.1 = c
    · rw [childLookup_cons_self hp] at h
      cases h
    · rw [childLookup_cons_ne hp] at h
      rcases List.mem_cons.mp hq with rfl | hq'
      · exact hp
      · exact ih h q hq'

theorem childLookup_of_mem_nodup {kids : List (Char × TrieNode)} {c : Char}
    {n : TrieNode} (hnd : (kids.map Prod.fst).Nodup) (hm : (c, n) ∈ kids) :
    childLookup kids c = some n := by
  induction kids with
  | nil => cases hm
  | cons p ps ih =>
    rw [List.map_cons, List.nodup_cons] at hnd
    obtain ⟨hp1, hp2⟩ := hnd
    rcases List.mem_cons.mp hm with heq | hm'
    · rw [← heq]
      exact childLookup_cons_self rfl
    · have hne : p.1 ≠ c := by
        intro he
        apply hp1
        rw [he]
        exact List.mem_map.mpr ⟨(c, n), hm', rfl⟩
      rw [childLookup_cons_ne hne]
      exact ih hp2 hm'

theorem childLookup_update_self {kids : List (Char × TrieNode)} {c : Char}
    {child : TrieNode} (n : TrieNode) (h : childLookup kids c = some child) :
    childLookup (childUpdate kids c n) c = some n := by
  induction kids with
  | nil => simp [childLookup] at h
  | cons p ps ih =>
    by_cases hp : p.1 = c
    · rw [show childUpdate (p :: ps) c n = (c, n) :: childUpdate ps c n from by
        simp [childUpdate, hp]]
      exact childLookup_cons_self rfl
    · rw [childLookup_cons_ne hp] at h
      rw [show childUpdate (p :: ps) c n = p :: childUpdate ps c n from by
        simp [childUpdate, hp]]
      rw [childLookup_cons_ne hp]
      exact ih h

theorem childLookup_update_ne {kids : List (Char × TrieNode)} {c : Char}
    {n : TrieNode} (c' : Char) (hne : c' ≠ c) :
    childLookup (childUpdate kids c n) c' = childLookup kids c' := by
  induction kids with
  | nil => rfl
  | cons p ps ih =>
    by_cases hp : p.1 = c
    · rw [show childUpdate (p :: ps) c n = (c, n) :: childUpdate ps c n from by
        simp [childUpdate, hp]]
      rw [childLookup_cons_ne (Ne.symm hne), childLookup_cons_ne ?hpne]
      case hpne =>
        rw [hp]
        exact Ne.symm hne
      exact ih
    · rw [show childUpdate (p :: ps) c n = p :: childUpdate ps c n from by
        simp [childUpdate, hp]]
      by_cases hpc : p.1 = c'
      · rw [childLookup_cons_self hpc, childLookup_cons_self hpc]
      · rw [childLookup_cons_ne hpc, childLookup_cons_ne hpc]
        exact ih

theorem childLookup_append_of_none {kids : List (Char × TrieNode)} {c : Char}
    (n : TrieNode) (h : childLookup kids c = none) :
    childLookup (kids ++ [(c, n)]) c = some n := by
  induction kids with
  | nil => exact childLookup_cons_self rfl
  | cons p ps ih =>
    by_cases hp : p.1 = c
    · rw [childLookup_cons_self hp] at h
      cases h
    · rw [childLookup_cons_ne hp] at h
      rw [List.cons_append, childLookup_cons_ne hp]
      exact ih h

theorem childLookup_append_ne {kids : List (Char × TrieNode)} {c : Char}
    (n : TrieNode) (c' : Char) (hne : c' ≠ c) :
    childLookup (kids ++ [(c, n)]) c' = childLookup kids c' := by
  induction kids with
  | nil => rw [List.nil_append, childLookup_cons_ne (Ne.symm hne)]
  | cons p ps ih =>
    by_cases hp : p.1 = c'
    · rw [List.cons_append, childLookup_cons_self hp, childLookup_cons_self hp]
    · rw [List.cons_append, childLookup_cons_ne hp, childLookup_cons_ne hp]
      exact ih

theorem freshChain_character (c : Char) (cs : List Char) :
    (freshChain c cs).character = [c] := by
  cases cs <;> rfl

theorem insertAux_mk_nil (ch : List Char) (e : Bool)
    (kids : List (Char × TrieNode)) :
    insertAux (.mk ch e kids) [] = .mk ch true kids := rfl

theorem insertAux_mk_cons (ch : List Char) (e : Bool)
    (kids : List (Char × TrieNode)) (c : Char) (rest : List Char) :
    insertAux (.mk ch e kids) (c :: rest) =
      (match childLookup kids c with
       | some child => .mk ch e (childUpdate kids c (insertAux child rest))
       | none => .mk ch e (kids ++ [(c, freshChain c rest)])) := rfl

theorem insertAux_character (t : TrieNode) (k : List Char) :
    (insertAux t k).character = t.character := by
  obtain ⟨ch, e, kids⟩ := t
  cases k with
  | nil => rfl
  | cons c rest =>
    rw [insertAux_mk_cons]
    cases hcl : childLookup kids c <;> rfl

theorem findNode_mk_cons (ch : List Char) (e : Bool)
    (kids : List (Char × TrieNode)) (c : Char) (xs : List Char) :
    findNode (.mk ch e kids) (c :: xs) =
      (match childLookup kids c with
       | some child => findNode child xs
       | none => none) := rfl

theorem memTrie_mk_nil (ch : List Char) (e : Bool)
    (kids : List (Char × TrieNode)) : memTrie (.mk ch e kids) [] = e := rfl

theorem memTrie_cons (ch : List Char) (e : Bool) (kids : List (Char × TrieNode))
    (c : Char) (xs : List Char) :
    memTrie (.mk ch e kids) (c :: xs) =
      (match childLookup kids c with
       | some child => memTrie child xs
       | none => false) := by
  unfold memTrie
  rw [findNode_mk_cons]
  cases childLookup kids c <;> rfl

theorem freshChain_mem (ks : List Char) : ∀ (c : Char) (xs : List Char),
    memTrie (freshChain c ks) xs = true ↔ xs = ks := by
  induction ks with
  | nil =>
    intro c xs
    cases xs with
    | nil => simp [freshChain, memTrie_mk_nil]
    | cons x xs' =>
      rw [show freshChain c [] = .mk [c] true [] from rfl, memTrie_cons]
      simp [childLookup]
  | cons k2 ks' ih =>
    intro c xs
    cases xs with
    | nil =>
      rw [show freshChain c (k2 :: ks') =
        .mk [c] false [(k2, freshChain k2 ks')] from rfl]
      simp [memTrie_mk_nil]
    | cons x xs' =>
      rw [show freshChain c (k2 :: ks') =
        .mk [c] false [(k2, freshChain k2 ks')] from rfl, memTrie_cons]
      by_cases hx : x = k2
      · subst hx
        rw [show childLookup [(x, freshChain x ks')] x =
          some (freshChain x ks') from childLookup_cons_self rfl]
        simp [ih x]
      · rw [show childLookup [(k2, freshChain k2 ks')] x = none from by
          rw [childLookup_cons_ne (fun he => hx he.symm)]
          rfl]
        simp [hx]

theorem memTrie_insertAux (k : List Char) : ∀ (t : TrieNode) (x : List Char),
    memTrie (insertAux t k) x = true ↔ (memTrie t x = true ∨ x = k) := by
  induction k with
  | nil =>
    intro t x
    obtain ⟨ch, e, kids⟩ := t
    cases x with
    | nil =>
      rw [show insertAux (.mk ch e kids) [] = .mk ch true kids from rfl]
      simp [memTrie_mk_nil]
    | cons c xs =>
      rw [show insertAux (.mk ch e kids) [] = .mk ch true kids from rfl,
        memTrie_cons, memTrie_cons]
      simp
  | cons c ks ih =>
    intro t x
    obtain ⟨ch, e, kids⟩ := t
    cases hcl : childLookup kids c with
    | some child =>
      rw [insertAux_mk_cons, hcl]
      cases x with
      | nil => simp [memTrie_mk_nil]
      | cons c' xs =>
        rw [memTrie_cons, memTrie_cons]
        by_cases hcc : c' = c
        · subst hcc
          rw [childLookup_update_self (insertAux child ks) hcl, hcl]
          simp only [ih child xs]
          simp
        · rw [childLookup_update_ne c' hcc]
          simp [hcc]
    | none =>
      rw [insertAux_mk_cons, hcl]
      cases x with
      | nil => simp [memTrie_mk_nil]
      | cons c' xs =>
        rw [memTrie_cons, memTrie_cons]
        by_cases hcc : c' = c
        · subst hcc
          rw [childLookup_append_of_none (freshChain c' ks) hcl, hcl]
          simp [freshChain_mem]
        · rw [childLookup_append_ne (freshChain c ks) c' hcc]
          simp [hcc]

theorem subWF_inv {ch : List Char} {e : Bool} {kids : List (Char × TrieNode)}
    (h : SubWF (.mk ch e kids)) :
    (kids.map Prod.fst).Nodup ∧
    (∀ p ∈ kids, TrieNode.character p.2 = [p.1]) ∧
    (∀ p ∈ kids, SubWF p.2) := by
  cases h with
  | mk c e kids hnd hch hsub => exact ⟨hnd, hch, hsub⟩

theorem subWF_freshChain (cs : List Char) : ∀ c : Char, SubWF (freshChain c cs) := by
  induction cs with
  | nil =>
    intro c
    exact SubWF.mk [c] true [] (by simp) (by simp) (by simp)
  | cons c2 rest ih =>
    intro c
    refine SubWF.mk [c] false [(c2, freshChain c2 rest)] (by simp) ?_ ?_
    · intro p hp
      rw [List.mem_singleton] at hp
      subst hp
      exact freshChain_character c2 rest
    · intro p hp
      rw [List.mem_singleton] at hp
      subst hp
      exact ih c2

theorem childUpdate_keys (kids : List (Char × TrieNode)) (c : Char)
    (n : TrieNode) :
    (childUpdate kids c n).map Prod.fst = kids.map Prod.fst := by
  unfold childUpdate
  rw [List.map_map]
  apply List.map_congr_left
  intro p _
  by_cases h : p.1 = c
  · simp [h]
  · simp [h]

theorem subWF_insertAux (k : List Char) : ∀ (t : TrieNode), SubWF t →
    SubWF (insertAux t k) := by
  induction k with
  | nil =>
    intro t h
    obtain ⟨ch, e, kids⟩ := t
    obtain ⟨hnd, hch, hsub⟩ := subWF_inv h
    rw [insertAux_mk_nil]
    exact SubWF.mk ch true kids hnd hch hsub
  | cons c ks ih =>
    intro t h
    obtain ⟨ch, e, kids⟩ := t
    obtain ⟨hnd, hch, hsub⟩ := subWF_inv h
    cases hcl : childLookup kids c with
    | some child =>
      rw [insertAux_mk_cons, hcl]
      refine SubWF.mk ch e _ ?_ ?_ ?_
      · rw [childUpdate_keys]
        exact hnd
      · intro p hp
        unfold childUpdate at hp
        rw [List.mem_map] at hp
        obtain ⟨q, hq, hpq⟩ := hp
        by_cases hqc : q.1 = c
        · rw [if_pos hqc] at hpq
          subst hpq
          show (insertAux child ks).character = [c]
          rw [insertAux_character]
          exact hch (c, child) (childLookup_mem hcl)
        · rw [if_neg hqc] at hpq
          subst hpq
          exact hch q hq
      · intro p hp
        unfold childUpdate at hp
        rw [List.mem_map] at hp
        obtain ⟨q, hq, hpq⟩ := hp
        by_cases hqc : q.1 = c
        · rw [if_pos hqc] at hpq
          subst hpq
          exact ih child (hsub (c, child) (childLookup_mem hcl))
        · rw [if_neg hqc] at hpq
          subst hpq
          exact hsub q hq
    | none =>
      rw [insertAux_mk_cons, hcl]
      refine SubWF.mk ch e _ ?_ ?_ ?_
      · have hnotin : c ∉ kids.map Prod.fst := by
          rw [List.mem_map]
          rintro ⟨q, hq, hqc⟩
          exact childLookup_eq_none hcl q hq hqc
        rw [List.map_append]
        simp [List.nodup_append, hnd, hnotin]
      · intro p hp
        rcases List.mem_append.mp hp with hp | hp
        · exact hch p hp
        · rw [List.mem_singleton] at hp
          subst hp
          exact freshChain_character c ks
      · intro p hp
        rcases List.mem_append.mp hp with hp | hp
        · exact hsub p hp
        · rw [List.mem_singleton] at hp
          subst hp
          exact subWF_freshChain ks c

theorem dfs_mk (c : List Char) (e : Bool) (kids : List (Char × TrieNode))
    (pre : List Char) :
    depth_first_search (.mk c e kids) pre =
      (if e then [pre ++ c] else []) ++ dfsChildren kids (pre ++ c) := rfl

theorem dfsChildren_cons (p : Char × TrieNode) (ps : List (Char × TrieNode))
    (pre : List Char) :
    dfsChildren (p :: ps) pre =
      depth_first_search p.2 pre ++ dfsChildren ps pre := by
  obtain ⟨a, b⟩ := p
  rfl

theorem mem_dfsChildren (kids : List (Char × TrieNode)) (pre : List Char)
    (x : List Char) :
    x ∈ dfsChildren kids pre ↔
      ∃ p ∈ kids, x ∈ depth_first_search p.2 pre := by
  induction kids with
  | nil => simp [dfsChildren]
  | cons p ps ih =>
    rw [dfsChildren_cons, List.mem_append, ih]
    constructor
    · rintro (hx | ⟨q, hq, hx⟩)
      · exact ⟨p, List.mem_cons_self p ps, hx⟩
      · exact ⟨q, List.mem_cons_of_mem p hq, hx⟩
    · rintro ⟨q, hq, hx⟩
      rcases List.mem_cons.mp hq with rfl | hq'
      · exact Or.inl hx
      · exact Or.inr ⟨q, hq', hx⟩

theorem mem_depth_first_search : ∀ (n : TrieNode), SubWF n →
    ∀ (pre x : List Char),
    (x ∈ depth_first_search n pre ↔
      ∃ s, x = pre ++ n.character ++ s ∧ memTrie n s = true) := by
  intro n
  induction n using TrieNode.inductionOn with
  | _ c e kids IH =>
    intro hw pre x
    obtain ⟨hnd, hch, hsub⟩ := subWF_inv hw
    rw [dfs_mk, List.mem_append, mem_dfsChildren]
    show _ ↔ ∃ s, x = pre ++ c ++ s ∧ memTrie (.mk c e kids) s = true
    constructor
    · rintro (hx | ⟨p, hp, hx⟩)
      · split at hx
        · rename_i he
          rw [List.mem_singleton] at hx
          refine ⟨[], by simp [hx], ?_⟩
          rw [memTrie_mk_nil]
          exact he
        · cases hx
      · rw [IH p hp (hsub p hp) (pre ++ c) x] at hx
        obtain ⟨s', hxs, hms⟩ := hx
        refine ⟨p.1 :: s', ?_, ?_⟩
        · rw [hxs, hch p hp]
          simp
        · rw [memTrie_cons,
            childLookup_of_mem_nodup hnd (show (p.1, p.2) ∈ kids from hp)]
          exact hms
    · rintro ⟨s, hxs, hms⟩
      cases s with
      | nil =>
        left
        rw [memTrie_mk_nil] at hms
        rw [hms]
        simp [hxs]
      | cons a s' =>
        right
        rw [memTrie_cons] at hms
        cases hcl : childLookup kids a with
        | none =>
          rw [hcl] at hms
          simp at hms
        | some child =>
          rw [hcl] at hms
          refine ⟨(a, child), childLookup_mem hcl, ?_⟩
          rw [IH (a, child) (childLookup_mem hcl)
            (hsub (a, child) (childLookup_mem hcl)) (pre ++ c) x]
          refine ⟨s', ?_, hms⟩
          rw [hxs, hch (a, child) (childLookup_mem hcl)]
          simp

theorem findNode_cons (t : TrieNode) (c : Char) (rest : List Char) :
    findNode t (c :: rest) =
      (match childLookup t.children c with
       | some child => findNode child rest
       | none => none) := rfl

theorem findNode_append (p : List Char) : ∀ (t : TrieNode) (s : List Char),
    findNode t (p ++ s) = (findNode t p).bind (fun n => findNode n s) := by
  induction p with
  | nil =>
    intro t s
    rfl
  | cons c rest ih =>
    intro t s
    rw [List.cons_append, findNode_cons, findNode_cons]
    cases hcl : childLookup t.children c with
    | none => rfl
    | some child => exact ih child s

theorem subWF_findNode : ∀ (p : List Char) (t : TrieNode), SubWF t →
    ∀ {n : TrieNode}, findNode t p = some n → SubWF n := by
  intro p
  induction p with
  | nil =>
    intro t hw n h
    injection h with h1
    rw [← h1]
    exact hw
  | cons c rest ih =>
    intro t hw n h
    obtain ⟨ch, e, kids⟩ := t
    obtain ⟨hnd, hch, hsub⟩ := subWF_inv hw
    rw [findNode_cons] at h
    cases hcl : childLookup (TrieNode.mk ch e kids).children c with
    | none =>
      rw [hcl] at h
      cases h
    | some child =>
      rw [hcl] at h
      exact ih child (hsub (c, child) (childLookup_mem hcl)) h

theorem findNode_dropLast_character : ∀ (p : List Char) (t : TrieNode),
    SubWF t → p ≠ [] → ∀ {n : TrieNode}, findNode t p = some n →
    p.dropLast ++ n.character = p := by
  intro p
  induction p with
  | nil =>
    intro t hw hne n h
    exact absurd rfl hne
  | cons c rest ih =>
    intro t hw hne n h
    obtain ⟨ch, e, kids⟩ := t
    obtain ⟨hnd, hch, hsub⟩ := subWF_inv hw
    rw [findNode_cons] at h
    cases hcl : childLookup (TrieNode.mk ch e kids).children c with
    | none =>
      rw [hcl] at h
      cases h
    | some child =>
      rw [hcl] at h
      cases rest with
      | nil =>
        injection h with h1
        rw [← h1]
        rw [show ([c] : List Char).dropLast = [] from rfl, List.nil_append]
        exact hch (c, child) (childLookup_mem hcl)
      | cons c2 rest2 =>
        have hstep := ih child (hsub (c, child) (childLookup_mem hcl))
          (by simp) h
        rw [show (c :: c2 :: rest2).dropLast = c :: (c2 :: rest2).dropLast
          from rfl]
        rw [List.cons_append, hstep]

theorem charListLe_total : ∀ a b : List Char,
    (charListLe a b || charListLe b a) = true := by
  intro a
  induction a with
  | nil =>
    intro b
    simp [charListLe]
  | cons x as ih =>
    intro b
    cases b with
    | nil => simp [charListLe]
    | cons y bs =>
      by_cases hxy : x = y
      · subst hxy
        simpa [charListLe] using ih bs
      · rcases lt_trichotomy x y with h | h | h
        · simp [charListLe, hxy, Ne.symm hxy, h]
        · exact absurd h hxy
        · simp [charListLe, hxy, Ne.symm hxy, h]

theorem charListLe_trans : ∀ a b c : List Char, charListLe a b = true →
    charListLe b c = true → charListLe a c = true := by
  intro a
  induction a with
  | nil =>
    intro b c h1 h2
    simp [charListLe]
  | cons x as ih =>
    intro b c h1 h2
    cases b with
    | nil => simp [charListLe] at h1
    | cons y bs =>
      cases c with
      | nil => simp [charListLe] at h2
      | cons z cs =>
        by_cases hxy : x = y <;> by_cases hyz : y = z
        · subst hxy
          subst hyz
          simp only [charListLe, if_pos rfl] at h1 h2 ⊢
          exact ih bs cs h1 h2
        · subst hxy
          simp only [charListLe, if_pos rfl] at h1
          simp only [charListLe, if_neg hyz] at h2 ⊢
          exact h2
        · subst hyz
          simp only [charListLe, if_neg hxy] at h1
          simp only [charListLe, if_neg hxy]
          exact h1
        · simp only [charListLe, if_neg hxy] at h1
          simp only [charListLe, if_neg hyz] at h2
          rw [decide_eq_true_eq] at h1 h2
          have hxz : x < z := lt_trans h1 h2
          simp only [charListLe, if_neg (ne_of_lt hxz)]
          rw [decide_eq_true_eq]
          exact hxz

theorem trieQuery_sorted (root : TrieNode) (p : List Char) :
    List.Pairwise (fun a b => charListLe b a = true) (trieQuery root p) := by
  unfold trieQuery
  cases findNode root p with
  | none => simp
  | some node =>
    exact List.sorted_mergeSort
      (fun a b c h1 h2 => charListLe_trans c b a h2 h1)
      (fun a b => charListLe_total b a)
      (depth_first_search node p.dropLast)

theorem mem_trieQuery (root : TrieNode) (hwf : RootWF root) (p x : List Char) :
    x ∈ trieQuery root p ↔ ((∃ s, x = p ++ s) ∧ memTrie root x = true) := by
  obtain ⟨hchar, hsub⟩ := hwf
  unfold trieQuery
  cases hfn : findNode root p with
  | none =>
    simp only [List.not_mem_nil, false_iff]
    rintro ⟨⟨s, hxs⟩, hmx⟩
    unfold memTrie at hmx
    rw [hxs, findNode_append, hfn] at hmx
    simp at hmx
  | some node =>
    rw [List.mem_mergeSort]
    rw [mem_depth_first_search node (subWF_findNode p root hsub hfn) p.dropLast x]
    have hpc : p.dropLast ++ node.character = p := by
      by_cases hp : p = []
      · subst hp
        have hnr : node = root := by
          have h0 : findNode root ([] : List Char) = some root := rfl
          rw [h0] at hfn
          injection hfn with h1
          exact h1.symm
        subst hnr
        simp [hchar]
      · exact findNode_dropLast_character p root hsub hp hfn
    constructor
    · rintro ⟨s, hxs, hms⟩
      rw [hpc] at hxs
      refine ⟨⟨s, hxs⟩, ?_⟩
      unfold memTrie
      rw [hxs, findNode_append, hfn]
      exact hms
    · rintro ⟨⟨s, hxs⟩, hmx⟩
      subst hxs
      have hms : memTrie node s = true := by
        unfold memTrie at hmx ⊢
        rw [findNode_append, hfn] at hmx
        exact hmx
      refine ⟨s, ?_, hms⟩
      rw [hpc]

theorem memTrie_emptyRoot (x : List Char) : memTrie emptyRoot x = false := by
  cases x with
  | nil => rfl
  | cons c xs => rfl

theorem memTrie_foldl (ks : List (List Char)) : ∀ (t : TrieNode) (x : List Char),
    memTrie (ks.foldl insertAux t) x = true ↔
      (memTrie t x = true ∨ x ∈ ks) := by
  induction ks with
  | nil =>
    intro t x
    simp
  | cons k ks' ih =>
    intro t x
    rw [List.foldl_cons, ih, memTrie_insertAux]
    rw [List.mem_cons]
    tauto

theorem memTrie_buildTrie (ks : List (List Char)) (x : List Char) :
    memTrie (buildTrie ks) x = true ↔ x ∈ ks := by
  unfold buildTrie
  rw [memTrie_foldl]
  simp [memTrie_emptyRoot]

theorem rootWF_buildTrie (ks : List (List Char)) : RootWF (buildTrie ks) := by
  unfold buildTrie
  have hstep : ∀ t : TrieNode, SubWF t → t.character = [] →
      SubWF (ks.foldl insertAux t) ∧ (ks.foldl insertAux t).character = [] := by
    induction ks with
    | nil =>
      intro t h1 h2
      exact ⟨h1, h2⟩
    | cons k ks' ih =>
      intro t h1 h2
      rw [List.foldl_cons]
      refine ih _ (subWF_insertAux k t h1) ?_
      rw [insertAux_character]
      exact h2
  have h := hstep emptyRoot (SubWF.mk [] false [] (by simp) (by simp) (by simp))
    rfl
  exact ⟨h.2, h.1⟩

/-! ### C6 — trie insert/query -/

/-- Claim C6: for every key inserted into the trie and every prefix of
that key, `query` on the prefix contains the key; `query("")` returns
exactly the inserted keys; and every query result is sorted in
descending lexicographic order. -/
theorem C6_trie (ks : List (List Char)) :
    (∀ k ∈ ks, ∀ p s, k = p ++ s → k ∈ trieQuery (buildTrie ks) p) ∧
    (∀ x, x ∈ trieQuery (buildTrie ks) [] ↔ x ∈ ks) ∧
    (∀ p, List.Pairwise (fun a b => charListLe b a = true)
      (trieQuery (buildTrie ks) p)) := by
  have hwf := rootWF_buildTrie ks
  refine ⟨?_, ?_, fun p => trieQuery_sorted (buildTrie ks) p⟩
  · intro k hk p s hps
    rw [mem_trieQuery (buildTrie ks) hwf]
    exact ⟨⟨s, hps⟩, (memTrie_buildTrie ks k).mpr hk⟩
  · intro x
    rw [mem_trieQuery (buildTrie ks) hwf, memTrie_buildTrie]
    simp

/-- Witness for C6: the key "ab", inserted together with "ac", is found
by querying the prefix "a". -/
theorem C6_witness :
    ['a', 'b'] ∈ trieQuery (buildTrie [['a', 'b'], ['a', 'c']]) ['a'] :=
  (C6_trie [['a', 'b'], ['a', 'c']]).1 ['a', 'b'] (by decide) ['a'] ['b'] rfl

/-! ### C10 — get_dataframe on missing keys -/

/-- Claim C10: for a key that is a prefix of no key in the trie,
`get_dataframe` returns `None` without opening the table store, and the
table store is opened only when the trie query is non-empty. -/
theorem C10_get_dataframe (ks : List (List Char))
    (storeGet : List Char → Option DataFrame) (key : List Char)
    (h : ∀ k ∈ ks, ∀ s, k ≠ key ++ s) :
    get_dataframe (buildTrie ks) storeGet key = (none, false) ∧
    (∀ (root : TrieNode) (k2 : List Char),
      (get_dataframe root storeGet k2).2 = true → trieQuery root k2 ≠ []) := by
  constructor
  · have hq : trieQuery (buildTrie ks) key = [] := by
      rw [List.eq_nil_iff_forall_not_mem]
      intro x hx
      rw [mem_trieQuery _ (rootWF_buildTrie ks)] at hx
      obtain ⟨⟨s, hxs⟩, hmx⟩ := hx
      exact h x ((memTrie_buildTrie ks x).mp hmx) s hxs
    simp [get_dataframe, hq]
  · intro root k2 h2 hq
    rw [show get_dataframe root storeGet k2 = (none, false) from by
      simp [get_dataframe, hq]] at h2
    cases h2

/-- Witness for C10 with a one-key trie and an unrelated key. -/
theorem C10_witness :
    get_dataframe (buildTrie [['a', 'b']]) (fun _ => none) ['c'] =
      (none, false) :=
  (C10_get_dataframe [['a', 'b']] (fun _ => none) ['c']
    (by
      intro k hk s heq
      rw [List.mem_singleton] at hk
      subst hk
      simp at heq)).1

end Oxn
